import Mathlib

/-!
# Verification of the Schema Migration Engine (scripts/migrate.py)

A shallow embedding of `src/project-dashboard/z-monitor/scripts/migrate.py`
(a sqlite-backed database migration runner) together with proofs and
refutations of the specification's claims about it.

Modelling conventions:

* The persisted sqlite database is a `Store`: the `schema_version` ledger
  table (a list of rows, in insertion order) plus an abstract list of
  `effects` recording which migration bodies have been committed to the
  store.  A migration body is opaque to the engine (the spec says it is
  "executed verbatim"), so a body is modelled as an atomic action that
  either succeeds, committing one effect tagged with the unit's filename,
  or fails, committing nothing.
* A `Conn` is a Python `sqlite3.Connection` in legacy transaction-control
  mode (the default): the committed store plus an optional open
  transaction holding an uncommitted view of the store.
* Crucially, `Cursor.executescript` is modelled after its documented
  behaviour: *"If there is a pending transaction, an implicit COMMIT
  statement is executed first. No other implicit transaction control is
  performed"* — so the script runs in autocommit mode and its effects are
  committed immediately, independently of the explicit
  `BEGIN TRANSACTION` that `apply_migration` issued just before.
  The subsequent parameterised `INSERT` is a DML statement, so the module
  implicitly begins a fresh transaction for it, which `conn.commit()`
  commits and `conn.rollback()` discards.
* Versions are Python `int`s, hence `Int` (signed: `int("-1")` parses).
* Prints are modelled as an ordered list of `Report` values.
* The file list handed to `mainRun` models the result of
  `migrations_dir.glob("*.sql")` in an arbitrary filesystem enumeration
  order; `sorted(...)` on same-directory `Path`s compares their names as
  strings, which matches `String`'s code-point lexicographic order.
-/

/-- One `str.split(sep)` (a single-character separator), Python semantics:
the result is always non-empty and keeps empty segments. -/
def splitChar (sep : Char) : List Char → List (List Char)
  | [] => [[]]
  | c :: cs =>
    match splitChar sep cs with
    | [] => [[c]]
    | seg :: rest => if c = sep then [] :: seg :: rest else (c :: seg) :: rest

/-- Join character-list segments with a separator (inverse of `splitChar`). -/
def joinChar (sep : Char) : List (List Char) → List Char
  | [] => []
  | [seg] => seg
  | seg :: rest => seg ++ sep :: joinChar sep rest

/-- `pathlib.PurePath.stem`: the final component minus its last suffix.
For names matched by `glob("*.sql")` (which excludes dotfiles) this is the
name with the final `.`-segment removed; a dotless name is returned whole. -/
def stem (s : String) : String :=
  match splitChar '.' s.toList with
  | [] => s
  | [_] => s
  | seg :: rest => String.mk (joinChar '.' ((seg :: rest).dropLast))

/-- `name.split('_')[0]`: the segment before the first underscore (the whole
string when it has no underscore; never raises `IndexError`). -/
def firstSeg (s : String) : String :=
  match splitChar '_' s.toList with
  | [] => s
  | seg :: _ => String.mk seg

/-- Value of a non-empty all-ASCII-digit character list, else `none`. -/
def digitsVal (cs : List Char) : Option Nat :=
  if cs ≠ [] ∧ cs.all Char.isDigit then
    some (cs.foldl (fun a c => a * 10 + (c.toNat - 48)) 0)
  else none

/-- Python `int(s)` on a string: optional surrounding whitespace, an
optional single sign, then a non-empty run of digits; anything else raises
`ValueError` (`none`).  (CPython additionally accepts underscores between
digits — unreachable here, since the argument is a pre-first-underscore
segment — and non-ASCII decimal digits, ignored in this model.) -/
def pyInt? (s : String) : Option Int :=
  let cs := (((s.toList.dropWhile Char.isWhitespace).reverse.dropWhile
      Char.isWhitespace).reverse)
  match cs with
  | '-' :: rest => (digitsVal rest).map (fun n => -(n : Int))
  | '+' :: rest => (digitsVal rest).map (fun n => (n : Int))
  | rest => (digitsVal rest).map (fun n => (n : Int))

/-- `int(migration_file.stem.split('_')[0])`, `none` when the code's
`except (ValueError, IndexError)` branch would be taken. -/
def parseVersion (name : String) : Option Int :=
  pyInt? (firstSeg (stem name))

/-- One row of the `schema_version` table.  `applied_at` (wall-clock
timestamp) is not modelled; `migration_type` is the constant `'schema'`. -/
structure VersionRecord where
  version : Int
  description : String
deriving DecidableEq

/-- The persistent sqlite database: the ledger table plus the committed
effects of migration bodies (each tagged by the filename that produced it). -/
structure Store where
  ledger : List VersionRecord
  effects : List String
deriving DecidableEq

/-- A `sqlite3.Connection` in the default (legacy) transaction-control
mode: `pending = some st` means a transaction is open and `st` is the
store as seen inside it; `pending = none` is autocommit mode. -/
structure Conn where
  committed : Store
  pending : Option Store
deriving DecidableEq

/-- The store as seen by statements on this connection. -/
def Conn.view (c : Conn) : Store :=
  c.pending.getD c.committed

/-- Does the ledger contain a row with this version? -/
def ledgerHas (st : Store) (v : Int) : Bool :=
  st.ledger.any (fun r => r.version = v)

/-- SQL `MAX(column)`: `none` (NULL) on an empty table. -/
def sqlMax : List Int → Option Int
  | [] => none
  | v :: vs =>
    match sqlMax vs with
    | none => some v
    | some m => some (max v m)

/-- `get_current_version`: `CREATE TABLE IF NOT EXISTS schema_version ...`
(a no-op in this model, where the table always exists) followed by
`SELECT MAX(version) FROM schema_version`, with NULL (empty table)
translated to 0 by `result[0] if result[0] is not None else 0`. -/
def get_current_version (c : Conn) : Int :=
  (sqlMax (c.view.ledger.map (·.version))).getD 0

/-- `conn.execute("BEGIN TRANSACTION")`: opens an explicit transaction. -/
def beginTx (c : Conn) : Conn :=
  { c with pending := some c.view }

/-- `conn.commit()`: makes the pending view the committed store. -/
def commitTx (c : Conn) : Conn :=
  { committed := c.view, pending := none }

/-- `conn.rollback()`: discards the pending view (no-op in autocommit). -/
def rollbackTx (c : Conn) : Conn :=
  { c with pending := none }

/-- `cursor.executescript(sql)` on a migration body.  Per the `sqlite3`
documentation, a pending transaction is implicitly COMMITted first and no
other transaction control is performed, so the script itself runs in
autocommit mode: on success its effect lands directly in the committed
store; on failure (`sqlite3.Error`) nothing is recorded.  The body is
opaque, so its success is the file's `bodyOk` flag and its effect is a
single marker carrying the file's name. -/
def executescript (c : Conn) (name : String) (bodyOk : Bool) : Conn × Bool :=
  let base : Conn := { committed := c.view, pending := none }
  if bodyOk then
    ({ base with
        committed := { base.committed with
          effects := base.committed.effects ++ [name] } }, true)
  else (base, false)

/-- `cursor.execute("INSERT INTO schema_version ...")`: a DML statement,
so the module implicitly opens a transaction if none is open; the insert
raises `IntegrityError` (a `sqlite3.Error`) when `version`, the primary
key, already exists, leaving the (possibly freshly opened) transaction
without the row. -/
def ledgerInsert (c : Conn) (v : Int) (desc : String) : Conn × Bool :=
  let pend := c.view
  if ledgerHas pend v then
    ({ c with pending := some pend }, false)
  else
    ({ c with pending := some { pend with
        ledger := pend.ledger ++ [⟨v, desc⟩] } }, true)

/-- A migration file as discovery sees it: its filename, whether `open`
succeeds at execution time, and whether its body executes without error. -/
structure MigrationFile where
  name : String
  readable : Bool
  bodyOk : Bool
deriving DecidableEq

/-- Which statement of `apply_migration` raised (ghost information: the
code logs `FileNotFoundError` and `sqlite3.Error` from the script and from
the insert through the same handlers and returns `False` for all three). -/
inductive FailSite where
  | missingFile
  | scriptError
  | insertError
deriving DecidableEq

/-- `apply_migration(conn, migration_file, version)`: read the file (a
`FileNotFoundError` is caught before any transaction is begun), then
`BEGIN TRANSACTION`, `executescript` the body, `INSERT` the version row,
`commit`; any `sqlite3.Error` triggers `conn.rollback()` and `False`.
Returns the resulting connection and `none` for success (`True`) or the
failing site for `False`. -/
def apply_migration (conn : Conn) (f : MigrationFile) (version : Int) :
    Conn × Option FailSite :=
  if f.readable = false then
    (conn, some .missingFile)
  else
    let c1 := beginTx conn
    match executescript c1 f.name f.bodyOk with
    | (c2, false) => (rollbackTx c2, some .scriptError)
    | (c2, true) =>
      match ledgerInsert c2 version (stem f.name) with
      | (c3, false) => (rollbackTx c3, some .insertError)
      | (c3, true) => (commitTx c3, none)

/-- The progress lines `main` and `apply_migration` print. -/
inductive Report where
  | currentVersionR (v : Int)
  | noFilesR
  | missingDirR
  | applyingR (v : Int) (name : String)
  | appliedOkR (v : Int)
  | failedMigR (v : Int) (site : FailSite)
  | stoppedAtR (v : Int)
  | skipWarningR (name : String)
  | appliedCountR (n : Nat)
  | upToDateR (v : Int)
deriving DecidableEq

/-- Outcome of the `for migration_file in migration_files:` loop. -/
structure LoopOut where
  conn : Conn
  reports : List Report
  applied_count : Nat
  failedAt : Option Int
deriving DecidableEq

/-- The migration loop of `main`, over the name-sorted file list:
parse the version from each filename (malformed names are skipped with a
warning and the loop continues), skip files with `version <= current_version`
(note: `current_version` was read once, before the loop, and is never
refreshed), apply the rest in order, and `sys.exit(1)` on first failure. -/
def migrate_loop (conn : Conn) (current : Int) : List MigrationFile → LoopOut
  | [] => ⟨conn, [], 0, none⟩
  | f :: rest =>
    match parseVersion f.name with
    | none =>
      let out := migrate_loop conn current rest
      { out with reports := .skipWarningR f.name :: out.reports }
    | some v =>
      if current < v then
        match apply_migration conn f v with
        | (c2, none) =>
          let out := migrate_loop c2 current rest
          { out with
              reports := .applyingR v f.name :: .appliedOkR v :: out.reports,
              applied_count := out.applied_count + 1 }
        | (c2, some site) =>
          ⟨c2, [.applyingR v f.name, .failedMigR v site, .stoppedAtR v], 0,
            some v⟩
      else migrate_loop conn current rest

/-- Outcome of one invocation of `main`. -/
structure MainOut where
  conn : Conn
  reports : List Report
  applied_count : Nat
  exitCode : Nat
  failedAt : Option Int
deriving DecidableEq

/-- Lexicographic less-or-equal on character lists by code point — exactly
Python's string comparison (which compares code points one by one, a strict
prefix comparing as smaller). -/
def charListLe : List Char → List Char → Bool
  | [], _ => true
  | _ :: _, [] => false
  | a :: as, b :: bs =>
    if a.toNat < b.toNat then true
    else if a.toNat = b.toNat then charListLe as bs
    else false

/-- Filename order used by `sorted` on same-directory `Path`s: Python
compares the names as strings. -/
def nameLe (a b : MigrationFile) : Prop :=
  charListLe a.name.toList b.name.toList = true

instance : DecidableRel nameLe := fun _ _ =>
  inferInstanceAs (Decidable (_ = true))

/-- `sorted(migrations_dir.glob("*.sql"))`: a stable sort of the entries
by filename (same-directory `Path` comparison is string comparison of the
names).  Python's `sorted` is stable; for a total preorder, any
stable sort produces the same list, so insertion sort models it exactly. -/
def sortFiles (fs : List MigrationFile) : List MigrationFile :=
  fs.insertionSort nameLe

/-- `main`, after argument parsing: abort with exit code 1 when the
migrations directory is missing; open a fresh (autocommit) connection to
the store; read the current version; glob and sort the `*.sql` entries
(exit 0 with a warning when there are none); run the loop; on loop failure
exit 1; otherwise re-read the final version and report it with the count,
exit 0. -/
def mainRun (dirExists : Bool) (store : Store) (files : List MigrationFile) :
    MainOut :=
  if dirExists = false then
    ⟨⟨store, none⟩, [.missingDirR], 0, 1, none⟩
  else
    let conn : Conn := ⟨store, none⟩
    let current := get_current_version conn
    let sorted := sortFiles files
    if sorted.isEmpty then
      ⟨conn, [.currentVersionR current, .noFilesR], 0, 0, none⟩
    else
      let out := migrate_loop conn current sorted
      match out.failedAt with
      | some v =>
        ⟨out.conn, .currentVersionR current :: out.reports,
          out.applied_count, 1, some v⟩
      | none =>
        let fv := get_current_version out.conn
        ⟨out.conn,
          .currentVersionR current :: out.reports ++
            [.appliedCountR out.applied_count, .upToDateR fv],
          out.applied_count, 0, none⟩

/-- The versions successfully applied by a run, in application order. -/
def appliedVersions (m : MainOut) : List Int :=
  m.reports.filterMap (fun r =>
    match r with
    | .appliedOkR v => some v
    | _ => none)

/-- The filenames for which `apply_migration` was invoked, in order. -/
def attemptedNames (m : MainOut) : List String :=
  m.reports.filterMap (fun r =>
    match r with
    | .applyingR _ n => some n
    | _ => none)

/-- The filenames skipped with the malformed-name warning. -/
def warnedNames (m : MainOut) : List String :=
  m.reports.filterMap (fun r =>
    match r with
    | .skipWarningR n => some n
    | _ => none)

theorem charListLe_total : ∀ x y, charListLe x y = true ∨ charListLe y x = true
  | [], _ => by left; rfl
  | _ :: _, [] => by right; rfl
  | a :: as, b :: bs => by
    rcases Nat.lt_trichotomy a.toNat b.toNat with h | h | h
    · left; simp [charListLe, h]
    · rcases charListLe_total as bs with ih | ih
      · left; simp [charListLe, h, ih]
      · right; simp [charListLe, h.symm, ih, Nat.lt_irrefl]
    · right; simp [charListLe, h]

theorem charListLe_trans : ∀ x y z, charListLe x y = true →
    charListLe y z = true → charListLe x z = true
  | [], _, _, _, _ => rfl
  | _ :: _, [], _, h1, _ => absurd h1 (by simp [charListLe])
  | _ :: _, _ :: _, [], _, h2 => absurd h2 (by simp [charListLe])
  | a :: as, b :: bs, c :: cs, h1, h2 => by
    simp only [charListLe] at h1 h2 ⊢
    split_ifs at h1 h2 ⊢ <;>
      first
        | rfl
        | exact charListLe_trans as bs cs h1 h2
        | omega

theorem charListLe_antisymm : ∀ x y, charListLe x y = true →
    charListLe y x = true → x = y
  | [], [], _, _ => rfl
  | [], _ :: _, _, h2 => absurd h2 (by simp [charListLe])
  | _ :: _, [], h1, _ => absurd h1 (by simp [charListLe])
  | a :: as, b :: bs, h1, h2 => by
    simp only [charListLe] at h1 h2
    rcases Nat.lt_trichotomy a.toNat b.toNat with hab | hab | hab
    · rw [if_neg (Nat.lt_asymm hab), if_neg (fun e => Nat.ne_of_lt hab e.symm)]
        at h2
      exact absurd h2 Bool.false_ne_true
    · have ha : a = b := Char.ext (UInt32.ext hab)
      subst ha
      rw [if_neg (Nat.lt_irrefl _), if_pos rfl] at h1 h2
      rw [charListLe_antisymm as bs h1 h2]
    · rw [if_neg (Nat.lt_asymm hab), if_neg (Nat.ne_of_lt' hab)] at h1
      exact absurd h1 Bool.false_ne_true

instance : IsTotal MigrationFile nameLe :=
  ⟨fun a b => charListLe_total a.name.toList b.name.toList⟩

instance : IsTrans MigrationFile nameLe :=
  ⟨fun _ _ _ h1 h2 => charListLe_trans _ _ _ h1 h2⟩

theorem charListLe_refl : ∀ x, charListLe x x = true
  | [] => rfl
  | a :: as => by
    simp only [charListLe, Nat.lt_irrefl, if_false, if_pos rfl]
    exact charListLe_refl as

theorem nameLe_refl (f : MigrationFile) : nameLe f f :=
  charListLe_refl _

theorem nameLe_antisymm_name {a b : MigrationFile} (h1 : nameLe a b)
    (h2 : nameLe b a) : a.name = b.name :=
  String.toList_inj.mp (charListLe_antisymm _ _ h1 h2)

theorem sortFiles_perm (fs : List MigrationFile) : (sortFiles fs).Perm fs :=
  List.perm_insertionSort nameLe fs

theorem sortFiles_sorted (fs : List MigrationFile) :
    (sortFiles fs).Sorted nameLe :=
  List.sorted_insertionSort nameLe fs

theorem mem_sortFiles {f : MigrationFile} {fs : List MigrationFile} :
    f ∈ sortFiles fs ↔ f ∈ fs :=
  (sortFiles_perm fs).mem_iff

/-- Two sorted lists of files that are permutations of each other and have
no duplicate filenames are equal (sorting by name is deterministic). -/
theorem sorted_perm_nodup_eq : ∀ {l1 l2 : List MigrationFile}, l1.Perm l2 →
    l1.Sorted nameLe → l2.Sorted nameLe → (l1.map (·.name)).Nodup → l1 = l2
  | [], _, hp, _, _, _ => hp.nil_eq
  | _ :: _, [], hp, _, _, _ => absurd hp.symm.nil_eq (by simp)
  | a :: t1, b :: t2, hp, hs1, hs2, hn => by
    have hab : a = b := by
      have hbmem : b ∈ a :: t1 := hp.mem_iff.mpr (List.mem_cons_self b t2)
      have hamem : a ∈ b :: t2 := hp.mem_iff.mp (List.mem_cons_self a t1)
      have h1 : nameLe a b := by
        rcases List.mem_cons.mp hbmem with h | h
        · exact h ▸ nameLe_refl a
        · exact List.rel_of_sorted_cons hs1 b h
      have h2 : nameLe b a := by
        rcases List.mem_cons.mp hamem with h | h
        · exact h ▸ nameLe_refl b
        · exact List.rel_of_sorted_cons hs2 a h
      have hname : a.name = b.name := nameLe_antisymm_name h1 h2
      rcases List.mem_cons.mp hbmem with h | h
      · exact h.symm
      · exfalso
        have hnot : a.name ∉ t1.map (·.name) := by
          simpa using (List.nodup_cons.mp hn).1
        exact hnot (hname ▸ List.mem_map_of_mem (·.name) h)
    subst hab
    have hp' : t1.Perm t2 := hp.cons_inv
    rw [sorted_perm_nodup_eq hp' hs1.of_cons hs2.of_cons
      (List.nodup_cons.mp hn).2]

theorem sqlMax_le_of_mem : ∀ {l : List Int} {v : Int}, v ∈ l →
    ∀ m, sqlMax l = some m → v ≤ m
  | [], _, hv, _, _ => absurd hv (List.not_mem_nil _)
  | w :: l, v, hv, m, hm => by
    cases hl : sqlMax l with
    | none =>
      cases l with
      | nil =>
        simp only [sqlMax] at hm
        rcases List.mem_cons.mp hv with h | h
        · simp only [Option.some.injEq] at hm; omega
        · exact absurd h (List.not_mem_nil _)
      | cons x xs =>
        exfalso
        simp only [sqlMax] at hl
        cases hx : sqlMax xs <;> simp [hx] at hl
    | some m' =>
      simp only [sqlMax, hl, Option.some.injEq] at hm
      rcases List.mem_cons.mp hv with h | h
      · subst h; omega
      · have := sqlMax_le_of_mem h m' hl
        omega

theorem sqlMax_mem : ∀ {l : List Int}, l ≠ [] →
    ∃ m, sqlMax l = some m ∧ m ∈ l
  | [], h => absurd rfl h
  | v :: l, _ => by
    cases hl : sqlMax l with
    | none => exact ⟨v, by simp [sqlMax, hl], List.mem_cons_self _ _⟩
    | some m =>
      have hlne : l ≠ [] := by
        intro h; subst h; simp [sqlMax] at hl
      obtain ⟨m', hm', hmem⟩ := sqlMax_mem hlne
      rw [hl] at hm'
      cases hm'
      refine ⟨max v m, by simp [sqlMax, hl], ?_⟩
      rcases le_total v m with h | h
      · rw [max_eq_right h]; exact List.mem_cons_of_mem _ hmem
      · rw [max_eq_left h]; exact List.mem_cons_self _ _

/-- Every ledger row's version is bounded by `get_current_version`. -/
theorem version_le_gcv {c : Conn} {r : VersionRecord} (h : r ∈ c.view.ledger) :
    r.version ≤ get_current_version c := by
  have hm : r.version ∈ c.view.ledger.map (·.version) :=
    List.mem_map_of_mem _ h
  obtain ⟨m, hsome, _⟩ := sqlMax_mem (l := c.view.ledger.map (·.version))
    (by intro he; rw [he] at hm; exact List.not_mem_nil _ hm)
  have hle := sqlMax_le_of_mem hm m hsome
  simp only [get_current_version, hsome, Option.getD_some]
  exact hle

/-- On a ledger whose versions are all non-negative, the current version is
non-negative (the `MAX` of a non-empty table is one of its rows; an empty
table reads as 0). -/
theorem gcv_nonneg {c : Conn} (h : ∀ r ∈ c.view.ledger, 0 ≤ r.version) :
    0 ≤ get_current_version c := by
  cases hl : c.view.ledger with
  | nil => simp [get_current_version, hl, sqlMax]
  | cons r rs =>
    obtain ⟨m, hsome, hmem⟩ := sqlMax_mem
      (l := (c.view.ledger.map (·.version))) (by simp [hl])
    obtain ⟨r', hr', hv⟩ := List.mem_map.mp hmem
    have hge := h r' hr'
    simp only [get_current_version, hsome, Option.getD_some]
    omega

theorem ledgerHas_iff {st : Store} {v : Int} :
    ledgerHas st v = true ↔ ∃ r ∈ st.ledger, r.version = v := by
  simp [ledgerHas]

/-- `apply_migration` on an unreadable file: no state change. -/
theorem apply_unreadable {conn : Conn} {f : MigrationFile} {v : Int}
    (hr : f.readable = false) :
    apply_migration conn f v = (conn, some .missingFile) := by
  simp [apply_migration, hr]

/-- `apply_migration` when the body fails: the explicit `BEGIN` is
implicitly committed (empty) by `executescript` and the rollback leaves
the committed store untouched. -/
theorem apply_bad_body {conn : Conn} {f : MigrationFile} {v : Int}
    (hp : conn.pending = none) (hr : f.readable = true)
    (hb : f.bodyOk = false) :
    apply_migration conn f v = (conn, some .scriptError) := by
  obtain ⟨st, pend⟩ := conn
  simp only at hp
  subst hp
  simp [apply_migration, hr, hb, beginTx, executescript, rollbackTx,
    Conn.view]

/-- `apply_migration` when the body succeeds but the version row already
exists: the insert raises `IntegrityError` and is rolled back, but the
body's effect was already committed by `executescript`'s implicit COMMIT
and autocommit execution, so it stays visible. -/
theorem apply_insert_dup {conn : Conn} {f : MigrationFile} {v : Int}
    (hp : conn.pending = none) (hr : f.readable = true)
    (hb : f.bodyOk = true) (hd : ledgerHas conn.committed v = true) :
    apply_migration conn f v =
      (⟨⟨conn.committed.ledger, conn.committed.effects ++ [f.name]⟩, none⟩,
        some .insertError) := by
  obtain ⟨st, pend⟩ := conn
  simp only at hp hd
  subst hp
  simp [apply_migration, hr, hb, beginTx, executescript, ledgerInsert,
    rollbackTx, Conn.view, ledgerHas] at hd ⊢
  simp [hd]

/-- `apply_migration`, fully successful path. -/
theorem apply_ok {conn : Conn} {f : MigrationFile} {v : Int}
    (hp : conn.pending = none) (hr : f.readable = true)
    (hb : f.bodyOk = true) (hd : ledgerHas conn.committed v = false) :
    apply_migration conn f v =
      (⟨⟨conn.committed.ledger ++ [⟨v, stem f.name⟩],
          conn.committed.effects ++ [f.name]⟩, none⟩, none) := by
  obtain ⟨st, pend⟩ := conn
  simp only at hp hd
  subst hp
  have hd2 : ledgerHas ⟨st.ledger, st.effects ++ [f.name]⟩ v = false := hd
  simp [apply_migration, hr, hb, beginTx, executescript, ledgerInsert,
    commitTx, Conn.view, hd2]

/-- A successful `apply_migration` forces the fully-successful path: the
resulting connection holds the new ledger row and the body's effect. -/
theorem apply_success_shape {conn c2 : Conn} {f : MigrationFile} {v : Int}
    (hp : conn.pending = none) (h : apply_migration conn f v = (c2, none)) :
    c2 = ⟨⟨conn.committed.ledger ++ [⟨v, stem f.name⟩],
        conn.committed.effects ++ [f.name]⟩, none⟩ := by
  cases hre : f.readable with
  | false => rw [apply_unreadable hre] at h; simp at h
  | true =>
    cases hb : f.bodyOk with
    | false => rw [apply_bad_body hp hre hb] at h; simp at h
    | true =>
      cases hd : ledgerHas conn.committed v with
      | true => rw [apply_insert_dup hp hre hb hd] at h; simp at h
      | false =>
        rw [apply_ok hp hre hb hd] at h
        injection h with h1 _
        exact h1.symm

/-- A failed `apply_migration` never adds a ledger row and leaves the
connection in autocommit mode (the effects list may still have grown —
that is the non-atomicity). -/
theorem apply_failure_shape {conn c2 : Conn} {f : MigrationFile} {v : Int}
    {site : FailSite} (hp : conn.pending = none)
    (h : apply_migration conn f v = (c2, some site)) :
    c2.pending = none ∧ c2.committed.ledger = conn.committed.ledger := by
  cases hre : f.readable with
  | false =>
    rw [apply_unreadable hre] at h
    injection h with h1 _
    subst h1
    exact ⟨hp, rfl⟩
  | true =>
    cases hb : f.bodyOk with
    | false =>
      rw [apply_bad_body hp hre hb] at h
      injection h with h1 _
      subst h1
      exact ⟨hp, rfl⟩
    | true =>
      cases hd : ledgerHas conn.committed v with
      | true =>
        rw [apply_insert_dup hp hre hb hd] at h
        injection h with h1 _
        subst h1
        exact ⟨rfl, rfl⟩
      | false => rw [apply_ok hp hre hb hd] at h; simp at h

/-- The loop always leaves the connection in autocommit mode. -/
theorem loop_pending : ∀ (fs : List MigrationFile) (conn : Conn) (cur : Int),
    conn.pending = none → (migrate_loop conn cur fs).conn.pending = none
  | [], _, _, hp => hp
  | f :: rest, conn, cur, hp => by
    cases hpv : parseVersion f.name with
    | none => simpa [migrate_loop, hpv] using loop_pending rest conn cur hp
    | some v =>
      by_cases hv : cur < v
      · rcases happ : apply_migration conn f v with ⟨c2, res⟩
        cases res with
        | none =>
          have hc2 := apply_success_shape hp happ
          subst hc2
          simpa [migrate_loop, hpv, hv, happ] using
            loop_pending rest _ cur rfl
        | some site =>
          have hfs := apply_failure_shape hp happ
          simpa [migrate_loop, hpv, hv, happ] using hfs.1
      · simpa [migrate_loop, hpv, hv] using loop_pending rest conn cur hp

/-- The loop only ever appends ledger rows, and only with versions above
the (stale) current version it was started with. -/
theorem loop_growth : ∀ (fs : List MigrationFile) (conn : Conn) (cur : Int),
    conn.pending = none →
    ∃ t, (migrate_loop conn cur fs).conn.committed.ledger =
        conn.committed.ledger ++ t ∧ ∀ r ∈ t, cur < r.version
  | [], conn, _, _ => ⟨[], by simp [migrate_loop], by simp⟩
  | f :: rest, conn, cur, hp => by
    cases hpv : parseVersion f.name with
    | none =>
      obtain ⟨t, ht, hall⟩ := loop_growth rest conn cur hp
      exact ⟨t, by simpa [migrate_loop, hpv] using ht, hall⟩
    | some v =>
      by_cases hv : cur < v
      · rcases happ : apply_migration conn f v with ⟨c2, res⟩
        cases res with
        | none =>
          have hc2 := apply_success_shape hp happ
          subst hc2
          obtain ⟨t, ht, hall⟩ := loop_growth rest
            ⟨⟨conn.committed.ledger ++ [⟨v, stem f.name⟩],
              conn.committed.effects ++ [f.name]⟩, none⟩ cur rfl
          refine ⟨⟨v, stem f.name⟩ :: t, ?_, ?_⟩
          · simp only [migrate_loop, hpv, hv, if_true, happ]
            rw [ht]
            simp
          · intro r hr
            rcases List.mem_cons.mp hr with h | h
            · subst h; exact hv
            · exact hall r h
        | some site =>
          have hfs := apply_failure_shape hp happ
          refine ⟨[], ?_, by simp⟩
          simpa [migrate_loop, hpv, hv, happ] using hfs.2
      · obtain ⟨t, ht, hall⟩ := loop_growth rest conn cur hp
        exact ⟨t, by simpa [migrate_loop, hpv, hv] using ht, hall⟩

/-- Every version reported as applied exceeds the (stale) current version
the loop was started with. -/
theorem loop_appliedOk_gt : ∀ (fs : List MigrationFile) (conn : Conn)
    (cur v : Int), conn.pending = none →
    Report.appliedOkR v ∈ (migrate_loop conn cur fs).reports → cur < v
  | [], _, _, _, _, h => by simp [migrate_loop] at h
  | f :: rest, conn, cur, v, hp, h => by
    cases hpv : parseVersion f.name with
    | none =>
      simp only [migrate_loop, hpv, List.mem_cons] at h
      rcases h with h | h
      · exact absurd h (by simp)
      · exact loop_appliedOk_gt rest conn cur v hp h
    | some v' =>
      by_cases hv : cur < v'
      · rcases happ : apply_migration conn f v' with ⟨c2, res⟩
        cases res with
        | none =>
          have hc2 := apply_success_shape hp happ
          subst hc2
          simp only [migrate_loop, hpv, hv, if_true, happ,
            List.mem_cons] at h
          rcases h with h | h | h
          · exact absurd h (by simp)
          · cases h; exact hv
          · exact loop_appliedOk_gt rest _ cur v rfl h
        | some site =>
          simp only [migrate_loop, hpv, hv, if_true, happ,
            List.mem_cons] at h
          rcases h with h | h | h | h <;> simp at h
      · simp only [migrate_loop, hpv, hv, if_false] at h
        exact loop_appliedOk_gt rest conn cur v hp h

/-- Every attempted application was of a file from the list whose name
parsed to a version above the stale current version. -/
theorem loop_applying : ∀ (fs : List MigrationFile) (conn : Conn)
    (cur v : Int) (n : String), conn.pending = none →
    Report.applyingR v n ∈ (migrate_loop conn cur fs).reports →
    cur < v ∧ ∃ f ∈ fs, f.name = n ∧ parseVersion n = some v
  | [], _, _, _, _, _, h => by simp [migrate_loop] at h
  | f :: rest, conn, cur, v, n, hp, h => by
    cases hpv : parseVersion f.name with
    | none =>
      simp only [migrate_loop, hpv, List.mem_cons] at h
      rcases h with h | h
      · exact absurd h (by simp)
      · obtain ⟨hv, g, hg, hn, hpn⟩ := loop_applying rest conn cur v n hp h
        exact ⟨hv, g, List.mem_cons_of_mem _ hg, hn, hpn⟩
    | some v' =>
      by_cases hv : cur < v'
      · rcases happ : apply_migration conn f v' with ⟨c2, res⟩
        cases res with
        | none =>
          have hc2 := apply_success_shape hp happ
          subst hc2
          simp only [migrate_loop, hpv, hv, if_true, happ,
            List.mem_cons] at h
          rcases h with h | h | h
          · simp only [Report.applyingR.injEq] at h
            obtain ⟨hvv, hnn⟩ := h
            subst hvv; subst hnn
            exact ⟨hv, f, List.mem_cons_self _ _, rfl, hpv⟩
          · exact absurd h (by simp)
          · obtain ⟨hv2, g, hg, hn, hpn⟩ := loop_applying rest _ cur v n rfl h
            exact ⟨hv2, g, List.mem_cons_of_mem _ hg, hn, hpn⟩
        | some site =>
          simp only [migrate_loop, hpv, hv, if_true, happ,
            List.mem_cons] at h
          rcases h with h | h
          · simp only [Report.applyingR.injEq] at h
            obtain ⟨hvv, hnn⟩ := h
            subst hvv; subst hnn
            exact ⟨hv, f, List.mem_cons_self _ _, rfl, hpv⟩
          · rcases h with h | h | h <;> simp at h
      · simp only [migrate_loop, hpv, hv, if_false] at h
        obtain ⟨hv2, g, hg, hn, hpn⟩ := loop_applying rest conn cur v n hp h
        exact ⟨hv2, g, List.mem_cons_of_mem _ hg, hn, hpn⟩

/-- Every malformed-name warning names a file from the list whose name
does not parse. -/
theorem loop_warning : ∀ (fs : List MigrationFile) (conn : Conn)
    (cur : Int) (n : String), conn.pending = none →
    Report.skipWarningR n ∈ (migrate_loop conn cur fs).reports →
    ∃ f ∈ fs, f.name = n ∧ parseVersion n = none
  | [], _, _, _, _, h => by simp [migrate_loop] at h
  | f :: rest, conn, cur, n, hp, h => by
    cases hpv : parseVersion f.name with
    | none =>
      simp only [migrate_loop, hpv, List.mem_cons] at h
      rcases h with h | h
      · simp only [Report.skipWarningR.injEq] at h
        subst h
        exact ⟨f, List.mem_cons_self _ _, rfl, hpv⟩
      · obtain ⟨g, hg, hn, hpn⟩ := loop_warning rest conn cur n hp h
        exact ⟨g, List.mem_cons_of_mem _ hg, hn, hpn⟩
    | some v' =>
      by_cases hv : cur < v'
      · rcases happ : apply_migration conn f v' with ⟨c2, res⟩
        cases res with
        | none =>
          have hc2 := apply_success_shape hp happ
          subst hc2
          simp only [migrate_loop, hpv, hv, if_true, happ,
            List.mem_cons] at h
          rcases h with h | h | h
          · exact absurd h (by simp)
          · exact absurd h (by simp)
          · obtain ⟨g, hg, hn, hpn⟩ := loop_warning rest _ cur n rfl h
            exact ⟨g, List.mem_cons_of_mem _ hg, hn, hpn⟩
        | some site =>
          simp only [migrate_loop, hpv, hv, if_true, happ,
            List.mem_cons] at h
          rcases h with h | h | h | h <;> simp at h
      · simp only [migrate_loop, hpv, hv, if_false] at h
        obtain ⟨g, hg, hn, hpn⟩ := loop_warning rest conn cur n hp h
        exact ⟨g, List.mem_cons_of_mem _ hg, hn, hpn⟩

/-- The loop never prints the final-version summary line. -/
theorem loop_no_upToDate : ∀ (fs : List MigrationFile) (conn : Conn)
    (cur u : Int), conn.pending = none →
    Report.upToDateR u ∉ (migrate_loop conn cur fs).reports
  | [], _, _, _, _, h => by simp [migrate_loop] at h
  | f :: rest, conn, cur, u, hp, h => by
    cases hpv : parseVersion f.name with
    | none =>
      simp only [migrate_loop, hpv, List.mem_cons] at h
      rcases h with h | h
      · exact absurd h (by simp)
      · exact loop_no_upToDate rest conn cur u hp h
    | some v' =>
      by_cases hv : cur < v'
      · rcases happ : apply_migration conn f v' with ⟨c2, res⟩
        cases res with
        | none =>
          have hc2 := apply_success_shape hp happ
          subst hc2
          simp only [migrate_loop, hpv, hv, if_true, happ,
            List.mem_cons] at h
          rcases h with h | h | h
          · exact absurd h (by simp)
          · exact absurd h (by simp)
          · exact loop_no_upToDate rest _ cur u rfl h
        | some site =>
          simp only [migrate_loop, hpv, hv, if_true, happ,
            List.mem_cons] at h
          rcases h with h | h | h | h <;> simp at h
      · simp only [migrate_loop, hpv, hv, if_false] at h
        exact loop_no_upToDate rest conn cur u hp h

/-- The loop never prints the applied-count summary line. -/
theorem loop_no_appliedCount : ∀ (fs : List MigrationFile) (conn : Conn)
    (cur : Int) (k : Nat), conn.pending = none →
    Report.appliedCountR k ∉ (migrate_loop conn cur fs).reports
  | [], _, _, _, _, h => by simp [migrate_loop] at h
  | f :: rest, conn, cur, k, hp, h => by
    cases hpv : parseVersion f.name with
    | none =>
      simp only [migrate_loop, hpv, List.mem_cons] at h
      rcases h with h | h
      · exact absurd h (by simp)
      · exact loop_no_appliedCount rest conn cur k hp h
    | some v' =>
      by_cases hv : cur < v'
      · rcases happ : apply_migration conn f v' with ⟨c2, res⟩
        cases res with
        | none =>
          have hc2 := apply_success_shape hp happ
          subst hc2
          simp only [migrate_loop, hpv, hv, if_true, happ,
            List.mem_cons] at h
          rcases h with h | h | h
          · exact absurd h (by simp)
          · exact absurd h (by simp)
          · exact loop_no_appliedCount rest _ cur k rfl h
        | some site =>
          simp only [migrate_loop, hpv, hv, if_true, happ,
            List.mem_cons] at h
          rcases h with h | h | h | h <;> simp at h
      · simp only [migrate_loop, hpv, hv, if_false] at h
        exact loop_no_appliedCount rest conn cur k hp h

/-- When the loop halts with a failure, it reported the failing version
with a diagnostic and a stopped-at line, and the failure came from a file
of the list whose name parsed above the stale current version. -/
theorem loop_failed : ∀ (fs : List MigrationFile) (conn : Conn)
    (cur v : Int), conn.pending = none →
    (migrate_loop conn cur fs).failedAt = some v →
    Report.stoppedAtR v ∈ (migrate_loop conn cur fs).reports ∧
    (∃ site, Report.failedMigR v site ∈ (migrate_loop conn cur fs).reports) ∧
    (∃ f ∈ fs, parseVersion f.name = some v ∧ cur < v)
  | [], _, _, _, _, h => by simp [migrate_loop] at h
  | f :: rest, conn, cur, v, hp, h => by
    cases hpv : parseVersion f.name with
    | none =>
      simp only [migrate_loop, hpv] at h ⊢
      obtain ⟨h1, ⟨site, h2⟩, g, hg, hgp⟩ := loop_failed rest conn cur v hp h
      exact ⟨List.mem_cons_of_mem _ h1, ⟨site, List.mem_cons_of_mem _ h2⟩,
        g, List.mem_cons_of_mem _ hg, hgp⟩
    | some v' =>
      by_cases hv : cur < v'
      · rcases happ : apply_migration conn f v' with ⟨c2, res⟩
        cases res with
        | none =>
          have hc2 := apply_success_shape hp happ
          subst hc2
          simp only [migrate_loop, hpv, hv, if_true, happ] at h ⊢
          obtain ⟨h1, ⟨site, h2⟩, g, hg, hgp⟩ :=
            loop_failed rest _ cur v rfl h
          exact ⟨List.mem_cons_of_mem _ (List.mem_cons_of_mem _ h1),
            ⟨site, List.mem_cons_of_mem _ (List.mem_cons_of_mem _ h2)⟩,
            g, List.mem_cons_of_mem _ hg, hgp⟩
        | some site =>
          simp only [migrate_loop, hpv, hv, if_true, happ] at h ⊢
          simp only [Option.some.injEq] at h
          subst h
          exact ⟨by simp, ⟨site, by simp⟩,
            f, List.mem_cons_self _ _, hpv, hv⟩
      · simp only [migrate_loop, hpv, hv, if_false] at h ⊢
        obtain ⟨h1, ⟨site, h2⟩, g, hg, hgp⟩ := loop_failed rest conn cur v hp h
        exact ⟨h1, ⟨site, h2⟩, g, List.mem_cons_of_mem _ hg, hgp⟩

/-- When the loop completes without failure, every file was either warned
about (unparseable name), already at or below the stale current version,
or ended up recorded in the ledger. -/
theorem loop_success_files : ∀ (fs : List MigrationFile) (conn : Conn)
    (cur : Int), conn.pending = none →
    (migrate_loop conn cur fs).failedAt = none →
    ∀ f ∈ fs,
      (parseVersion f.name = none →
        Report.skipWarningR f.name ∈ (migrate_loop conn cur fs).reports) ∧
      (∀ v, parseVersion f.name = some v →
        v ≤ cur ∨ ledgerHas (migrate_loop conn cur fs).conn.committed v = true)
  | [], _, _, _, _, f, hf => absurd hf (List.not_mem_nil _)
  | g :: rest, conn, cur, hp, hfail, f, hf => by
    cases hpv : parseVersion g.name with
    | none =>
      simp only [migrate_loop, hpv] at hfail ⊢
      rcases List.mem_cons.mp hf with he | he
      · subst he
        refine ⟨fun _ => List.mem_cons_self _ _, fun v hsome => ?_⟩
        rw [hpv] at hsome
        exact absurd hsome (by simp)
      · obtain ⟨h1, h2⟩ := loop_success_files rest conn cur hp hfail f he
        exact ⟨fun hn => List.mem_cons_of_mem _ (h1 hn), h2⟩
    | some v' =>
      by_cases hv : cur < v'
      · rcases happ : apply_migration conn g v' with ⟨c2, res⟩
        cases res with
        | none =>
          have hc2 := apply_success_shape hp happ
          subst hc2
          simp only [migrate_loop, hpv, hv, if_true, happ] at hfail ⊢
          rcases List.mem_cons.mp hf with he | he
          · refine ⟨fun hn => ?_, fun v hsome => ?_⟩
            · rw [he, hpv] at hn; exact absurd hn (by simp)
            · rw [he, hpv] at hsome
              simp only [Option.some.injEq] at hsome
              right
              obtain ⟨t, ht, _⟩ := loop_growth rest
                ⟨⟨conn.committed.ledger ++ [⟨v', stem g.name⟩],
                  conn.committed.effects ++ [g.name]⟩, none⟩ cur rfl
              rw [ledgerHas_iff]
              refine ⟨⟨v', stem g.name⟩, ?_, hsome⟩
              rw [ht]
              simp
          · obtain ⟨h1, h2⟩ := loop_success_files rest
              ⟨⟨conn.committed.ledger ++ [⟨v', stem g.name⟩],
                conn.committed.effects ++ [g.name]⟩, none⟩ cur rfl hfail f he
            exact ⟨fun hn => List.mem_cons_of_mem _
              (List.mem_cons_of_mem _ (h1 hn)), h2⟩
        | some site =>
          simp only [migrate_loop, hpv, hv, if_true, happ] at hfail
          exact absurd hfail (by simp)
      · simp only [migrate_loop, hpv, hv, if_false] at hfail ⊢
        rcases List.mem_cons.mp hf with he | he
        · subst he
          refine ⟨fun hn => ?_, fun v hsome => ?_⟩
          · rw [hpv] at hn; exact absurd hn (by simp)
          · rw [hpv] at hsome
            simp only [Option.some.injEq] at hsome
            subst hsome
            exact Or.inl (by omega)
        · exact loop_success_files rest conn cur hp hfail f he

/-- When every file is either unparseable or filtered out by the version
check, the loop changes nothing: no applications, no failure. -/
theorem loop_noop : ∀ (fs : List MigrationFile) (conn : Conn) (cur : Int),
    (∀ f ∈ fs, parseVersion f.name = none ∨
      ∃ v, parseVersion f.name = some v ∧ v ≤ cur) →
    (migrate_loop conn cur fs).conn = conn ∧
    (migrate_loop conn cur fs).applied_count = 0 ∧
    (migrate_loop conn cur fs).failedAt = none
  | [], _, _, _ => ⟨rfl, rfl, rfl⟩
  | g :: rest, conn, cur, h => by
    have hrest : ∀ f ∈ rest, parseVersion f.name = none ∨
        ∃ v, parseVersion f.name = some v ∧ v ≤ cur :=
      fun f hf => h f (List.mem_cons_of_mem _ hf)
    rcases h g (List.mem_cons_self _ _) with hg | ⟨v, hg, hle⟩
    · simp only [migrate_loop, hg]
      obtain ⟨h1, h2, h3⟩ := loop_noop rest conn cur hrest
      exact ⟨h1, h2, h3⟩
    · have hnv : ¬ cur < v := by omega
      simp only [migrate_loop, hg, hnv, if_false]
      exact loop_noop rest conn cur hrest

theorem mem_appliedVersions {m : MainOut} {v : Int} :
    v ∈ appliedVersions m ↔ Report.appliedOkR v ∈ m.reports := by
  simp only [appliedVersions, List.mem_filterMap]
  constructor
  · rintro ⟨r, hr, he⟩
    cases r <;> simp only [Option.some.injEq] at he <;> try exact absurd he (by simp)
    · rename_i v'
      cases he
      exact hr
  · intro h
    exact ⟨_, h, rfl⟩

theorem mem_attemptedNames {m : MainOut} {n : String} :
    n ∈ attemptedNames m ↔ ∃ v, Report.applyingR v n ∈ m.reports := by
  simp only [attemptedNames, List.mem_filterMap]
  constructor
  · rintro ⟨r, hr, he⟩
    cases r <;> simp only [Option.some.injEq] at he <;> try exact absurd he (by simp)
    · rename_i v' n'
      cases he
      exact ⟨v', hr⟩
  · rintro ⟨v, h⟩
    exact ⟨_, h, rfl⟩

theorem mem_warnedNames {m : MainOut} {n : String} :
    n ∈ warnedNames m ↔ Report.skipWarningR n ∈ m.reports := by
  simp only [warnedNames, List.mem_filterMap]
  constructor
  · rintro ⟨r, hr, he⟩
    cases r <;> simp only [Option.some.injEq] at he <;> try exact absurd he (by simp)
    · rename_i n'
      cases he
      exact hr
  · intro h
    exact ⟨_, h, rfl⟩

/-- **C8** (confirmed): `get_current_version` returns the maximum version
recorded in the ledger (an upper bound that is attained), and returns 0
whenever the ledger is empty. -/
theorem current_version_is_ledger_max (c : Conn) :
    (c.view.ledger = [] → get_current_version c = 0) ∧
    (∀ r ∈ c.view.ledger, r.version ≤ get_current_version c) ∧
    (c.view.ledger ≠ [] →
      ∃ r ∈ c.view.ledger, get_current_version c = r.version) := by
  refine ⟨fun h => ?_, fun r hr => version_le_gcv hr, fun h => ?_⟩
  · simp [get_current_version, h, sqlMax]
  · obtain ⟨m, hsome, hmem⟩ := sqlMax_mem (l := c.view.ledger.map (·.version))
      (by simpa using h)
    obtain ⟨r, hr, hv⟩ := List.mem_map.mp hmem
    refine ⟨r, hr, ?_⟩
    rw [get_current_version, hsome, Option.getD_some, hv]

theorem current_version_is_ledger_max_witness :
    ∃ r ∈ (⟨⟨[⟨3, "0003_a"⟩, ⟨7, "0007_b"⟩], []⟩, none⟩ : Conn).view.ledger,
      get_current_version ⟨⟨[⟨3, "0003_a"⟩, ⟨7, "0007_b"⟩], []⟩, none⟩ =
        r.version :=
  (current_version_is_ledger_max
    ⟨⟨[⟨3, "0003_a"⟩, ⟨7, "0007_b"⟩], []⟩, none⟩).2.2 (by decide)

/-- **C1** (code bug): the claim demands that when the ledger insert is
forced to fail after the body succeeded, neither the body's effects nor
the ledger row are visible.  In the code, `cursor.executescript` implicitly
COMMITs the explicit `BEGIN TRANSACTION` and runs the body in autocommit
mode, so when the subsequent insert fails, `conn.rollback()` discards only
the failed insert: `apply_migration` returns failure, no ledger row is
added, but the body's effects remain visible in the committed store. -/
theorem apply_not_atomic_on_forced_insert_failure (conn : Conn)
    (f : MigrationFile) (v : Int) (hp : conn.pending = none)
    (hr : f.readable = true) (hb : f.bodyOk = true)
    (hd : ledgerHas conn.committed v = true) :
    (apply_migration conn f v).2 = some FailSite.insertError ∧
    (apply_migration conn f v).1.committed.effects =
      conn.committed.effects ++ [f.name] ∧
    (apply_migration conn f v).1.committed.ledger = conn.committed.ledger ∧
    (apply_migration conn f v).1.pending = none := by
  rw [apply_insert_dup hp hr hb hd]
  exact ⟨rfl, rfl, rfl, rfl⟩

theorem apply_not_atomic_on_forced_insert_failure_witness :
    (apply_migration ⟨⟨[⟨5, "0005_a"⟩], []⟩, none⟩
        ⟨"0005_b.sql", true, true⟩ 5).2 = some FailSite.insertError ∧
    (apply_migration ⟨⟨[⟨5, "0005_a"⟩], []⟩, none⟩
        ⟨"0005_b.sql", true, true⟩ 5).1.committed.effects =
      ([] : List String) ++ ["0005_b.sql"] ∧
    (apply_migration ⟨⟨[⟨5, "0005_a"⟩], []⟩, none⟩
        ⟨"0005_b.sql", true, true⟩ 5).1.committed.ledger = [⟨5, "0005_a"⟩] ∧
    (apply_migration ⟨⟨[⟨5, "0005_a"⟩], []⟩, none⟩
        ⟨"0005_b.sql", true, true⟩ 5).1.pending = none :=
  apply_not_atomic_on_forced_insert_failure
    ⟨⟨[⟨5, "0005_a"⟩], []⟩, none⟩ ⟨"0005_b.sql", true, true⟩ 5
    rfl rfl rfl (by decide)

/-- **C6** (confirmed): the exit code is 0 exactly when the directory
exists and no migration failed (including the nothing-to-apply case), and
1 exactly when the directory is missing or a migration failed; an empty
directory exits 0 having applied nothing. -/
theorem exit_code_matches_outcome (dirE : Bool) (st : Store)
    (fs : List MigrationFile) :
    ((mainRun dirE st fs).exitCode = 0 ↔
      dirE = true ∧ (mainRun dirE st fs).failedAt = none) ∧
    ((mainRun dirE st fs).exitCode = 1 ↔
      dirE = false ∨ (mainRun dirE st fs).failedAt ≠ none) ∧
    (dirE = true → fs = [] →
      (mainRun dirE st fs).exitCode = 0 ∧
      (mainRun dirE st fs).applied_count = 0) := by
  cases dirE with
  | false => simp [mainRun]
  | true =>
    by_cases hie : (sortFiles fs).isEmpty
    · simp [mainRun, hie]
    · have hne : fs ≠ [] := by
        intro h
        subst h
        exact hie (by rfl)
      rcases hfa : (migrate_loop ⟨st, none⟩
          (get_current_version ⟨st, none⟩) (sortFiles fs)).failedAt with _ | v
      · simp [mainRun, hie, hfa, hne]
      · simp [mainRun, hie, hfa, hne]

theorem exit_code_matches_outcome_witness :
    (mainRun true ⟨[], []⟩ []).exitCode = 0 ∧
    (mainRun true ⟨[], []⟩ []).applied_count = 0 :=
  (exit_code_matches_outcome true ⟨[], []⟩ []).2.2 rfl rfl

/-- `main` with a missing migrations directory. -/
theorem mainRun_false_eq (st : Store) (fs : List MigrationFile) :
    mainRun false st fs = ⟨⟨st, none⟩, [.missingDirR], 0, 1, none⟩ := by
  simp [mainRun]

/-- `main` with no `*.sql` entries. -/
theorem mainRun_true_empty (st : Store) (fs : List MigrationFile)
    (hie : (sortFiles fs).isEmpty = true) :
    mainRun true st fs = ⟨⟨st, none⟩,
      [.currentVersionR (get_current_version ⟨st, none⟩), .noFilesR],
      0, 0, none⟩ := by
  simp [mainRun, hie]

/-- `main` when the loop completes without failure. -/
theorem mainRun_true_none (st : Store) (fs : List MigrationFile)
    (hie : (sortFiles fs).isEmpty = false)
    (hfa : (migrate_loop ⟨st, none⟩ (get_current_version ⟨st, none⟩)
      (sortFiles fs)).failedAt = none) :
    mainRun true st fs =
      ⟨(migrate_loop ⟨st, none⟩ (get_current_version ⟨st, none⟩)
          (sortFiles fs)).conn,
        .currentVersionR (get_current_version ⟨st, none⟩) ::
          (migrate_loop ⟨st, none⟩ (get_current_version ⟨st, none⟩)
            (sortFiles fs)).reports ++
          [.appliedCountR (migrate_loop ⟨st, none⟩
              (get_current_version ⟨st, none⟩) (sortFiles fs)).applied_count,
            .upToDateR (get_current_version (migrate_loop ⟨st, none⟩
              (get_current_version ⟨st, none⟩) (sortFiles fs)).conn)],
        (migrate_loop ⟨st, none⟩ (get_current_version ⟨st, none⟩)
          (sortFiles fs)).applied_count, 0, none⟩ := by
  simp [mainRun, hie, hfa]

/-- `main` when the loop halts at a failing migration. -/
theorem mainRun_true_some (st : Store) (fs : List MigrationFile) (v : Int)
    (hie : (sortFiles fs).isEmpty = false)
    (hfa : (migrate_loop ⟨st, none⟩ (get_current_version ⟨st, none⟩)
      (sortFiles fs)).failedAt = some v) :
    mainRun true st fs =
      ⟨(migrate_loop ⟨st, none⟩ (get_current_version ⟨st, none⟩)
          (sortFiles fs)).conn,
        .currentVersionR (get_current_version ⟨st, none⟩) ::
          (migrate_loop ⟨st, none⟩ (get_current_version ⟨st, none⟩)
            (sortFiles fs)).reports,
        (migrate_loop ⟨st, none⟩ (get_current_version ⟨st, none⟩)
          (sortFiles fs)).applied_count, 1, some v⟩ := by
  simp [mainRun, hie, hfa]

/-- On a present directory with a non-empty file list, every report of
`main` is the initial current-version line, a loop report, or one of the
two success-path summary lines. -/
theorem mainRun_reports_split (st : Store) (fs : List MigrationFile)
    (hie : (sortFiles fs).isEmpty = false) :
    ∀ r ∈ (mainRun true st fs).reports,
      r = Report.currentVersionR (get_current_version ⟨st, none⟩) ∨
      r ∈ (migrate_loop ⟨st, none⟩ (get_current_version ⟨st, none⟩)
        (sortFiles fs)).reports ∨
      (∃ k, r = Report.appliedCountR k) ∨ (∃ u, r = Report.upToDateR u) := by
  intro r hr
  rcases hfa : (migrate_loop ⟨st, none⟩
      (get_current_version ⟨st, none⟩) (sortFiles fs)).failedAt with _ | v
  · rw [mainRun_true_none st fs hie hfa] at hr
    simp only [List.mem_cons, List.mem_append] at hr
    rcases hr with (hr | hr) | (hr | hr | hr)
    · exact Or.inl hr
    · exact Or.inr (Or.inl hr)
    · exact Or.inr (Or.inr (Or.inl ⟨_, hr⟩))
    · exact Or.inr (Or.inr (Or.inr ⟨_, hr⟩))
    · exact absurd hr (List.not_mem_nil _)
  · rw [mainRun_true_some st fs v hie hfa] at hr
    simp only [List.mem_cons] at hr
    rcases hr with hr | hr
    · exact Or.inl hr
    · exact Or.inr (Or.inl hr)

/-- On a present directory with a non-empty file list, the final
connection of `main` is the loop's final connection. -/
theorem mainRun_conn_nonempty (st : Store) (fs : List MigrationFile)
    (hie : (sortFiles fs).isEmpty = false) :
    (mainRun true st fs).conn =
      (migrate_loop ⟨st, none⟩ (get_current_version ⟨st, none⟩)
        (sortFiles fs)).conn := by
  rcases hfa : (migrate_loop ⟨st, none⟩
      (get_current_version ⟨st, none⟩) (sortFiles fs)).failedAt with _ | v
  · rw [mainRun_true_none st fs hie hfa]
  · rw [mainRun_true_some st fs v hie hfa]

/-- On a present directory with a non-empty file list, `main` forwards the
loop's failure state and applied count. -/
theorem mainRun_failedAt_nonempty (st : Store) (fs : List MigrationFile)
    (hie : (sortFiles fs).isEmpty = false) :
    (mainRun true st fs).failedAt =
      (migrate_loop ⟨st, none⟩ (get_current_version ⟨st, none⟩)
        (sortFiles fs)).failedAt ∧
    (mainRun true st fs).applied_count =
      (migrate_loop ⟨st, none⟩ (get_current_version ⟨st, none⟩)
        (sortFiles fs)).applied_count := by
  rcases hfa : (migrate_loop ⟨st, none⟩
      (get_current_version ⟨st, none⟩) (sortFiles fs)).failedAt with _ | v
  · rw [mainRun_true_none st fs hie hfa]
    exact ⟨rfl, rfl⟩
  · rw [mainRun_true_some st fs v hie hfa]
    exact ⟨rfl, rfl⟩

/-- **C9** (confirmed): over any store whose ledger versions are all
non-negative (which includes every store this engine can produce), a unit
whose filename ordinal parses to 0 is never attempted and never recorded
on any run, and produces no warning: it parses successfully, but the
candidate filter demands `version > current_version`, and the current
version is at least 0. -/
theorem zero_version_unit_never_applied (st : Store)
    (fs : List MigrationFile) (f : MigrationFile)
    (hn : ∀ r ∈ st.ledger, 0 ≤ r.version)
    (hf : f ∈ fs) (h0 : parseVersion f.name = some 0) :
    f.name ∉ attemptedNames (mainRun true st fs) ∧
    f.name ∉ warnedNames (mainRun true st fs) ∧
    ∀ r ∈ (mainRun true st fs).conn.committed.ledger,
      r.version = 0 → r ∈ st.ledger := by
  have hcur : 0 ≤ get_current_version ⟨st, none⟩ :=
    gcv_nonneg (c := ⟨st, none⟩) hn
  by_cases hie : (sortFiles fs).isEmpty
  · refine ⟨?_, ?_, ?_⟩
    · intro h
      rw [mem_attemptedNames] at h
      obtain ⟨v, hv⟩ := h
      rw [mainRun_true_empty st fs hie] at hv
      simp at hv
    · intro h
      rw [mem_warnedNames] at h
      rw [mainRun_true_empty st fs hie] at h
      simp at h
    · intro r hr _
      rw [mainRun_true_empty st fs hie] at hr
      exact hr
  · have hie' : (sortFiles fs).isEmpty = false := by
      simpa using hie
    refine ⟨?_, ?_, ?_⟩
    · intro h
      rw [mem_attemptedNames] at h
      obtain ⟨v, hv⟩ := h
      rcases mainRun_reports_split st fs hie' _ hv with h' | h' | ⟨k, h'⟩ | ⟨u, h'⟩
      · simp at h'
      · obtain ⟨hlt, g, hg, hgn, hgp⟩ := loop_applying _ _ _ _ _ rfl h'
        rw [hgp] at h0
        simp only [Option.some.injEq] at h0
        omega
      · simp at h'
      · simp at h'
    · intro h
      rw [mem_warnedNames] at h
      rcases mainRun_reports_split st fs hie' _ h with h' | h' | ⟨k, h'⟩ | ⟨u, h'⟩
      · simp at h'
      · obtain ⟨g, hg, hgn, hgp⟩ := loop_warning _ _ _ _ rfl h'
        rw [hgp] at h0
        exact absurd h0 (by simp)
      · simp at h'
      · simp at h'
    · intro r hr hr0
      rw [mainRun_conn_nonempty st fs hie'] at hr
      obtain ⟨t, ht, hall⟩ := loop_growth (sortFiles fs) ⟨st, none⟩
        (get_current_version ⟨st, none⟩) rfl
      rw [ht] at hr
      rcases List.mem_append.mp hr with h' | h'
      · exact h'
      · have := hall r h'
        omega

theorem zero_version_unit_never_applied_witness :
    "0000_init.sql" ∉ attemptedNames
      (mainRun true ⟨[], []⟩ [⟨"0000_init.sql", true, true⟩]) ∧
    "0000_init.sql" ∉ warnedNames
      (mainRun true ⟨[], []⟩ [⟨"0000_init.sql", true, true⟩]) ∧
    ∀ r ∈ (mainRun true ⟨[], []⟩
        [⟨"0000_init.sql", true, true⟩]).conn.committed.ledger,
      r.version = 0 → r ∈ ([] : List VersionRecord) :=
  zero_version_unit_never_applied ⟨[], []⟩ [⟨"0000_init.sql", true, true⟩]
    ⟨"0000_init.sql", true, true⟩ (by intro r hr; exact absurd hr (by simp))
    (by simp) (by decide)

/-- Sorting a two-element file list whose first element compares at or
below the second leaves it in place. -/
theorem sortFiles_pair {f1 f2 : MigrationFile} (hle : nameLe f1 f2) :
    sortFiles [f1, f2] = [f1, f2] := by
  simp [sortFiles, List.insertionSort, List.orderedInsert, hle]

/-- **C10** (confirmed): two units parsing to the same version `v` above
the current version both pass the candidate filter (the current version is
read once, before the loop, and never refreshed), the first is applied,
the second fails on the ledger insert (`version` is the primary key), and
the run halts with exit code 1. -/
theorem duplicate_version_collision_fails_run (st : Store)
    (f1 f2 : MigrationFile) (v : Int)
    (h1r : f1.readable = true) (h1b : f1.bodyOk = true)
    (h2r : f2.readable = true) (h2b : f2.bodyOk = true)
    (hp1 : parseVersion f1.name = some v) (hp2 : parseVersion f2.name = some v)
    (hle : nameLe f1 f2)
    (hcur : get_current_version ⟨st, none⟩ < v) :
    (mainRun true st [f1, f2]).exitCode = 1 ∧
    appliedVersions (mainRun true st [f1, f2]) = [v] ∧
    (mainRun true st [f1, f2]).failedAt = some v ∧
    Report.failedMigR v FailSite.insertError ∈
      (mainRun true st [f1, f2]).reports ∧
    attemptedNames (mainRun true st [f1, f2]) = [f1.name, f2.name] := by
  have hsort := sortFiles_pair hle
  have hnd : ledgerHas st v = false := by
    cases hhas : ledgerHas st v with
    | false => rfl
    | true =>
      exfalso
      obtain ⟨r, hr, hv⟩ := ledgerHas_iff.mp hhas
      have : r.version ≤ get_current_version ⟨st, none⟩ :=
        version_le_gcv (c := ⟨st, none⟩) hr
      omega
  have happ1 : apply_migration ⟨st, none⟩ f1 v =
      (⟨⟨st.ledger ++ [⟨v, stem f1.name⟩], st.effects ++ [f1.name]⟩, none⟩,
        none) :=
    apply_ok rfl h1r h1b hnd
  have hd2 : ledgerHas
      (⟨st.ledger ++ [⟨v, stem f1.name⟩], st.effects ++ [f1.name]⟩ : Store)
      v = true := by
    rw [ledgerHas_iff]
    exact ⟨⟨v, stem f1.name⟩, by simp, rfl⟩
  have happ2 : apply_migration
      ⟨⟨st.ledger ++ [⟨v, stem f1.name⟩], st.effects ++ [f1.name]⟩, none⟩ f2 v =
      (⟨⟨st.ledger ++ [⟨v, stem f1.name⟩],
          (st.effects ++ [f1.name]) ++ [f2.name]⟩, none⟩,
        some .insertError) :=
    apply_insert_dup rfl h2r h2b hd2
  have hloop : migrate_loop ⟨st, none⟩ (get_current_version ⟨st, none⟩)
      (sortFiles [f1, f2]) =
      ⟨⟨⟨st.ledger ++ [⟨v, stem f1.name⟩],
          (st.effects ++ [f1.name]) ++ [f2.name]⟩, none⟩,
        [.applyingR v f1.name, .appliedOkR v,
          .applyingR v f2.name, .failedMigR v .insertError, .stoppedAtR v],
        1, some v⟩ := by
    rw [hsort]
    simp only [migrate_loop, hp1, hp2, hcur, if_true, happ1, happ2]
  have hie : (sortFiles [f1, f2]).isEmpty = false := by
    rw [hsort]; rfl
  have hmain := mainRun_true_some st [f1, f2] v hie (by rw [hloop])
  rw [hloop] at hmain
  rw [hmain]
  refine ⟨rfl, ?_, rfl, ?_, ?_⟩
  · simp [appliedVersions]
  · simp
  · simp [attemptedNames]

theorem duplicate_version_collision_fails_run_witness :
    (mainRun true ⟨[], []⟩ [⟨"0005_a.sql", true, true⟩,
      ⟨"0005_b.sql", true, true⟩]).exitCode = 1 ∧
    appliedVersions (mainRun true ⟨[], []⟩ [⟨"0005_a.sql", true, true⟩,
      ⟨"0005_b.sql", true, true⟩]) = [5] ∧
    (mainRun true ⟨[], []⟩ [⟨"0005_a.sql", true, true⟩,
      ⟨"0005_b.sql", true, true⟩]).failedAt = some 5 ∧
    Report.failedMigR 5 FailSite.insertError ∈
      (mainRun true ⟨[], []⟩ [⟨"0005_a.sql", true, true⟩,
        ⟨"0005_b.sql", true, true⟩]).reports ∧
    attemptedNames (mainRun true ⟨[], []⟩ [⟨"0005_a.sql", true, true⟩,
      ⟨"0005_b.sql", true, true⟩]) = ["0005_a.sql", "0005_b.sql"] :=
  duplicate_version_collision_fails_run ⟨[], []⟩
    ⟨"0005_a.sql", true, true⟩ ⟨"0005_b.sql", true, true⟩ 5
    rfl rfl rfl rfl (by decide) (by decide) (by decide) (by decide)

/-- A connection in autocommit mode reads the committed store. -/
theorem gcv_committed {c : Conn} (hp : c.pending = none) :
    get_current_version c = get_current_version ⟨c.committed, none⟩ := by
  simp [get_current_version, Conn.view, hp]

theorem sortFiles_isEmpty_false {fs : List MigrationFile} (h : fs ≠ []) :
    (sortFiles fs).isEmpty = false := by
  cases hs : sortFiles fs with
  | nil =>
    exfalso
    have hperm := sortFiles_perm fs
    rw [hs] at hperm
    exact h hperm.nil_eq.symm
  | cons a l => rfl

/-- The current version of a non-empty ledger is attained by one of its
rows. -/
theorem gcv_attained {c : Conn} (h : c.view.ledger ≠ []) :
    ∃ r ∈ c.view.ledger, get_current_version c = r.version := by
  obtain ⟨m, hsome, hmem⟩ := sqlMax_mem (l := c.view.ledger.map (·.version))
    (by simpa using h)
  obtain ⟨r, hr, hv⟩ := List.mem_map.mp hmem
  refine ⟨r, hr, ?_⟩
  rw [get_current_version, hsome, Option.getD_some, hv]

/-- Appending only rows with versions above the current version cannot
decrease the current version. -/
theorem gcv_append_ge {st st' : Store} {t : List VersionRecord}
    (h : st'.ledger = st.ledger ++ t)
    (ht : ∀ r ∈ t, get_current_version ⟨st, none⟩ < r.version) :
    get_current_version (⟨st, none⟩ : Conn) ≤
      get_current_version (⟨st', none⟩ : Conn) := by
  cases hl : st.ledger with
  | nil =>
    cases hT : t with
    | nil =>
      have hemp : st'.ledger = [] := by simp [h, hl, hT]
      simp [get_current_version, Conn.view, hemp, hl, sqlMax]
    | cons r0 rt =>
      obtain ⟨r, hr, hv⟩ := gcv_attained (c := ⟨st', none⟩)
        (by simp [Conn.view, h, hl, hT])
      have hrt : r ∈ t := by
        have : r ∈ st'.ledger := hr
        rw [h, hl] at this
        simpa using this
      have := ht r hrt
      omega
  | cons r0 rt =>
    obtain ⟨r, hr, hv⟩ := gcv_attained (c := ⟨st, none⟩)
      (by simp [Conn.view, hl])
    have hr' : r ∈ st'.ledger := by
      rw [h]
      exact List.mem_append_left _ hr
    have := version_le_gcv (c := ⟨st', none⟩) hr'
    omega

/-- **C2** (counterexample): discovery orders candidates by filename, not
by parsed version: with valid units `2_b.sql` and `10_a.sql`, discovery
puts `10_a.sql` first (`"1" < "2"` as strings), so the candidate sequence
parses to `[10, 2]` — not ascending — and the run applies version 10
before the lower version 2. -/
theorem discovery_not_sorted_by_version :
    (sortFiles [⟨"2_b.sql", true, true⟩, ⟨"10_a.sql", true, true⟩]).map
      (fun f => parseVersion f.name) = [some 10, some 2] ∧
    appliedVersions (mainRun true ⟨[], []⟩
      [⟨"2_b.sql", true, true⟩, ⟨"10_a.sql", true, true⟩]) = [10, 2] ∧
    (mainRun true ⟨[], []⟩
      [⟨"2_b.sql", true, true⟩, ⟨"10_a.sql", true, true⟩]).exitCode = 0 :=
  ⟨by decide, by decide, by decide⟩

/-- **C2 amended**: whatever order the filesystem enumerates the entries
in, discovery produces the same candidate sequence — sorted by *filename*
(lexicographic), which coincides with ascending parsed version whenever
the ordinal segments are zero-padded to equal width, as in the
`{0001,0003,0004}` convention example, where any enumeration order yields
applications exactly `[1, 3, 4]`. -/
theorem discovery_filename_order_deterministic :
    (∀ fs fs' : List MigrationFile, fs.Perm fs' →
      (fs.map (·.name)).Nodup → sortFiles fs = sortFiles fs') ∧
    appliedVersions (mainRun true ⟨[], []⟩
      [⟨"0003_b.sql", true, true⟩, ⟨"0001_a.sql", true, true⟩,
        ⟨"0004_c.sql", true, true⟩]) = [1, 3, 4] ∧
    appliedVersions (mainRun true ⟨[], []⟩
      [⟨"0004_c.sql", true, true⟩, ⟨"0003_b.sql", true, true⟩,
        ⟨"0001_a.sql", true, true⟩]) = [1, 3, 4] := by
  refine ⟨?_, by decide, by decide⟩
  intro fs fs' hperm hnd
  have h1 : (sortFiles fs).Perm (sortFiles fs') :=
    (sortFiles_perm fs).trans (hperm.trans (sortFiles_perm fs').symm)
  have hnd1 : ((sortFiles fs).map (·.name)).Nodup :=
    (((sortFiles_perm fs).map (·.name)).nodup_iff).mpr hnd
  exact sorted_perm_nodup_eq h1 (sortFiles_sorted fs) (sortFiles_sorted fs')
    hnd1

theorem discovery_filename_order_deterministic_witness :
    sortFiles [⟨"0003_b.sql", true, true⟩, ⟨"0001_a.sql", true, true⟩] =
      sortFiles [⟨"0001_a.sql", true, true⟩, ⟨"0003_b.sql", true, true⟩] :=
  discovery_filename_order_deterministic.1
    [⟨"0003_b.sql", true, true⟩, ⟨"0001_a.sql", true, true⟩]
    [⟨"0001_a.sql", true, true⟩, ⟨"0003_b.sql", true, true⟩]
    (by decide) (by decide)

/-- **C5** (counterexample): `-1_bad.sql` does not parse to a
*non-negative* integer ordinal — Python's `int` accepts the sign and
returns -1 — yet the run emits no warning for it: the entry is silently
excluded by the candidate filter (`-1 > 0` fails), not skipped-with-warning
by discovery as the claim requires for every such entry. -/
theorem negative_ordinal_not_warned :
    parseVersion "-1_bad.sql" = some (-1) ∧
    warnedNames (mainRun true ⟨[], []⟩
      [⟨"0001_init.sql", true, true⟩, ⟨"-1_bad.sql", true, true⟩]) = [] ∧
    (mainRun true ⟨[], []⟩
      [⟨"0001_init.sql", true, true⟩,
        ⟨"-1_bad.sql", true, true⟩]).exitCode = 0 ∧
    appliedVersions (mainRun true ⟨[], []⟩
      [⟨"0001_init.sql", true, true⟩, ⟨"-1_bad.sql", true, true⟩]) = [1] :=
  ⟨by decide, by decide, by decide, by decide⟩

/-- **C5 amended**: an entry whose ordinal segment does not parse as an
integer at all (Python's `int`, which accepts an optional sign, so
negative ordinals parse and are instead silently excluded by the candidate
filter) is never attempted, and — as long as the run does not halt earlier
at a failing migration — is skipped with a warning; a run failure is
always at a version parsed from some entry, never caused by a malformed
name.  The spec's example `0001_init.sql, notanumber_bad.sql,
0002_add_index.sql` yields applications exactly `[1, 2]`, one warning for
the malformed entry, and a successful exit. -/
theorem malformed_name_warned_and_skipped (st : Store)
    (fs : List MigrationFile) (f : MigrationFile) (hf : f ∈ fs)
    (hnoparse : parseVersion f.name = none) :
    f.name ∉ attemptedNames (mainRun true st fs) ∧
    ((mainRun true st fs).failedAt = none →
      Report.skipWarningR f.name ∈ (mainRun true st fs).reports) ∧
    (∀ v, (mainRun true st fs).failedAt = some v →
      ∃ g ∈ fs, parseVersion g.name = some v) ∧
    appliedVersions (mainRun true ⟨[], []⟩
      [⟨"0001_init.sql", true, true⟩, ⟨"notanumber_bad.sql", true, true⟩,
        ⟨"0002_add_index.sql", true, true⟩]) = [1, 2] ∧
    warnedNames (mainRun true ⟨[], []⟩
      [⟨"0001_init.sql", true, true⟩, ⟨"notanumber_bad.sql", true, true⟩,
        ⟨"0002_add_index.sql", true, true⟩]) = ["notanumber_bad.sql"] ∧
    (mainRun true ⟨[], []⟩
      [⟨"0001_init.sql", true, true⟩, ⟨"notanumber_bad.sql", true, true⟩,
        ⟨"0002_add_index.sql", true, true⟩]).exitCode = 0 := by
  have hne : fs ≠ [] := by
    intro h
    subst h
    exact absurd hf (List.not_mem_nil _)
  have hie' := sortFiles_isEmpty_false hne
  refine ⟨?_, ?_, ?_, by decide, by decide, by decide⟩
  · intro h
    rw [mem_attemptedNames] at h
    obtain ⟨v, hv⟩ := h
    rcases mainRun_reports_split st fs hie' _ hv with h' | h' | ⟨k, h'⟩ | ⟨u, h'⟩
    · simp at h'
    · obtain ⟨_, g, hg, hgn, hgp⟩ := loop_applying _ _ _ _ _ rfl h'
      rw [hgp] at hnoparse
      exact absurd hnoparse (by simp)
    · simp at h'
    · simp at h'
  · intro hnone
    have hfa := (mainRun_failedAt_nonempty st fs hie').1
    rw [hnone] at hfa
    obtain ⟨h1, _⟩ := loop_success_files (sortFiles fs) ⟨st, none⟩
      (get_current_version ⟨st, none⟩) rfl hfa.symm f (mem_sortFiles.mpr hf)
    have hw := h1 hnoparse
    rw [mainRun_true_none st fs hie' hfa.symm]
    exact List.mem_append_left _ (List.mem_cons_of_mem _ hw)
  · intro v hv
    have hfa := (mainRun_failedAt_nonempty st fs hie').1
    rw [hv] at hfa
    obtain ⟨_, _, g, hg, hgp, _⟩ := loop_failed (sortFiles fs) ⟨st, none⟩
      (get_current_version ⟨st, none⟩) v rfl hfa.symm
    exact ⟨g, mem_sortFiles.mp hg, hgp⟩

theorem malformed_name_warned_and_skipped_witness :
    "notanumber_bad.sql" ∉ attemptedNames (mainRun true ⟨[], []⟩
      [⟨"0001_init.sql", true, true⟩,
        ⟨"notanumber_bad.sql", true, true⟩]) ∧
    ((mainRun true ⟨[], []⟩ [⟨"0001_init.sql", true, true⟩,
        ⟨"notanumber_bad.sql", true, true⟩]).failedAt = none →
      Report.skipWarningR "notanumber_bad.sql" ∈ (mainRun true ⟨[], []⟩
        [⟨"0001_init.sql", true, true⟩,
          ⟨"notanumber_bad.sql", true, true⟩]).reports) ∧
    (∀ v, (mainRun true ⟨[], []⟩ [⟨"0001_init.sql", true, true⟩,
        ⟨"notanumber_bad.sql", true, true⟩]).failedAt = some v →
      ∃ g ∈ [⟨"0001_init.sql", true, true⟩,
        (⟨"notanumber_bad.sql", true, true⟩ : MigrationFile)],
        parseVersion g.name = some v) ∧
    appliedVersions (mainRun true ⟨[], []⟩
      [⟨"0001_init.sql", true, true⟩, ⟨"notanumber_bad.sql", true, true⟩,
        ⟨"0002_add_index.sql", true, true⟩]) = [1, 2] ∧
    warnedNames (mainRun true ⟨[], []⟩
      [⟨"0001_init.sql", true, true⟩, ⟨"notanumber_bad.sql", true, true⟩,
        ⟨"0002_add_index.sql", true, true⟩]) = ["notanumber_bad.sql"] ∧
    (mainRun true ⟨[], []⟩
      [⟨"0001_init.sql", true, true⟩, ⟨"notanumber_bad.sql", true, true⟩,
        ⟨"0002_add_index.sql", true, true⟩]).exitCode = 0 :=
  malformed_name_warned_and_skipped ⟨[], []⟩
    [⟨"0001_init.sql", true, true⟩, ⟨"notanumber_bad.sql", true, true⟩]
    ⟨"notanumber_bad.sql", true, true⟩ (by simp) (by decide)

/-- **C7** (counterexample): on a failing run the code exits inside the
loop without re-reading or reporting the final current version and without
reporting the applied count — the claim requires both in the Failed
terminal state. -/
theorem failed_run_reports_no_final_version :
    (mainRun true ⟨[], []⟩ [⟨"0001_a.sql", true, false⟩]).exitCode = 1 ∧
    (¬ ∃ u, Report.upToDateR u ∈
      (mainRun true ⟨[], []⟩ [⟨"0001_a.sql", true, false⟩]).reports) ∧
    (¬ ∃ k, Report.appliedCountR k ∈
      (mainRun true ⟨[], []⟩ [⟨"0001_a.sql", true, false⟩]).reports) := by
  have hrep : (mainRun true ⟨[], []⟩ [⟨"0001_a.sql", true, false⟩]).reports =
      [.currentVersionR 0, .applyingR 1 "0001_a.sql",
        .failedMigR 1 .scriptError, .stoppedAtR 1] := by decide
  refine ⟨by decide, ?_, ?_⟩
  · rintro ⟨u, hu⟩
    rw [hrep] at hu
    simp at hu
  · rintro ⟨k, hk⟩
    rw [hrep] at hk
    simp at hk

/-- **C7 amended**: on Done (with a non-empty file list) the run reports
the final current version re-read from the ledger together with the count
applied this run; on Failed it reports the version of the first failure
with a diagnostic and a stopped-at line, but neither a re-read final
version nor an applied count.  (With no `*.sql` files at all, the run only
warns and reports neither.) -/
theorem terminal_state_reports (st : Store) (fs : List MigrationFile)
    (hne : fs ≠ []) :
    ((mainRun true st fs).failedAt = none →
      Report.appliedCountR (mainRun true st fs).applied_count ∈
        (mainRun true st fs).reports ∧
      Report.upToDateR (get_current_version (mainRun true st fs).conn) ∈
        (mainRun true st fs).reports) ∧
    (∀ v, (mainRun true st fs).failedAt = some v →
      Report.stoppedAtR v ∈ (mainRun true st fs).reports ∧
      (∃ site, Report.failedMigR v site ∈ (mainRun true st fs).reports) ∧
      (∀ u, Report.upToDateR u ∉ (mainRun true st fs).reports) ∧
      (∀ k, Report.appliedCountR k ∉ (mainRun true st fs).reports)) := by
  have hie' := sortFiles_isEmpty_false hne
  rcases hfa : (migrate_loop ⟨st, none⟩ (get_current_version ⟨st, none⟩)
      (sortFiles fs)).failedAt with _ | w
  · rw [mainRun_true_none st fs hie' hfa]
    refine ⟨fun _ => ⟨?_, ?_⟩, fun v hv => absurd hv (by simp)⟩
    · simp
    · simp
  · rw [mainRun_true_some st fs w hie' hfa]
    refine ⟨fun h => absurd h (by simp), fun v hv => ?_⟩
    have hvw : v = w := by
      simp at hv
      omega
    subst hvw
    obtain ⟨h1, ⟨site, h2⟩, _⟩ := loop_failed (sortFiles fs) ⟨st, none⟩
      (get_current_version ⟨st, none⟩) v rfl hfa
    refine ⟨List.mem_cons_of_mem _ h1, ⟨site, List.mem_cons_of_mem _ h2⟩,
      ?_, ?_⟩
    · intro u hu
      rcases List.mem_cons.mp hu with h' | h'
      · simp at h'
      · exact loop_no_upToDate (sortFiles fs) ⟨st, none⟩
          (get_current_version ⟨st, none⟩) u rfl h'
    · intro k hk
      rcases List.mem_cons.mp hk with h' | h'
      · simp at h'
      · exact loop_no_appliedCount (sortFiles fs) ⟨st, none⟩
          (get_current_version ⟨st, none⟩) k rfl h'

theorem terminal_state_reports_witness :
    Report.appliedCountR (mainRun true ⟨[], []⟩
      [⟨"0001_a.sql", true, true⟩]).applied_count ∈
      (mainRun true ⟨[], []⟩ [⟨"0001_a.sql", true, true⟩]).reports ∧
    Report.upToDateR (get_current_version (mainRun true ⟨[], []⟩
      [⟨"0001_a.sql", true, true⟩]).conn) ∈
      (mainRun true ⟨[], []⟩ [⟨"0001_a.sql", true, true⟩]).reports :=
  (terminal_state_reports ⟨[], []⟩ [⟨"0001_a.sql", true, true⟩]
    (by simp)).1 (by decide)

/-- **C4 counterexample**: rerunning is not unconditionally idempotent.
First run from an empty store with `10_a.sql` (ok), `2_u.sql` (failing
body), `99_w.sql` (ok): filename order applies 10 first, halts at 2, never
reaches 99; ledger max becomes 10.  The second run filters 10 and 2 out
(both at or below 10) but 99 now passes and is applied: the second run
applies one migration and moves the current version from 10 to 99. -/
theorem rerun_after_failed_run_applies_migration :
    (mainRun true ⟨[], []⟩ [⟨"10_a.sql", true, true⟩,
      ⟨"2_u.sql", true, false⟩, ⟨"99_w.sql", true, true⟩]).exitCode = 1 ∧
    get_current_version (mainRun true ⟨[], []⟩ [⟨"10_a.sql", true, true⟩,
      ⟨"2_u.sql", true, false⟩, ⟨"99_w.sql", true, true⟩]).conn = 10 ∧
    (mainRun true (mainRun true ⟨[], []⟩ [⟨"10_a.sql", true, true⟩,
        ⟨"2_u.sql", true, false⟩, ⟨"99_w.sql", true, true⟩]).conn.committed
      [⟨"10_a.sql", true, true⟩, ⟨"2_u.sql", true, false⟩,
        ⟨"99_w.sql", true, true⟩]).applied_count = 1 ∧
    get_current_version (mainRun true
      (mainRun true ⟨[], []⟩ [⟨"10_a.sql", true, true⟩,
        ⟨"2_u.sql", true, false⟩, ⟨"99_w.sql", true, true⟩]).conn.committed
      [⟨"10_a.sql", true, true⟩, ⟨"2_u.sql", true, false⟩,
        ⟨"99_w.sql", true, true⟩]).conn = 99 :=
  ⟨by decide, by decide, by decide, by decide⟩

/-- **C4 amended**: a version already present in the ledger at the start
of a run is never applied by that run — every applied version strictly
exceeds the ledger maximum read at the start — and, provided the run
exited successfully, invoking the engine again on the resulting store with
the same units applies zero migrations and leaves the current version
unchanged.  (After a *failed* run, a rerun may legitimately resume and
apply pending candidates, as the spec's own no-retry policy describes.) -/
theorem rerun_idempotent_after_success (dirE : Bool) (st : Store)
    (fs : List MigrationFile) :
    (∀ v ∈ appliedVersions (mainRun dirE st fs),
      get_current_version ⟨st, none⟩ < v) ∧
    (∀ r ∈ st.ledger, r.version ∉ appliedVersions (mainRun dirE st fs)) ∧
    ((mainRun dirE st fs).exitCode = 0 →
      (mainRun dirE (mainRun dirE st fs).conn.committed fs).applied_count
        = 0 ∧
      get_current_version
        (mainRun dirE (mainRun dirE st fs).conn.committed fs).conn =
        get_current_version (mainRun dirE st fs).conn) := by
  cases dirE with
  | false =>
    refine ⟨?_, ?_, ?_⟩
    · intro v hv
      rw [mainRun_false_eq] at hv
      simp [appliedVersions] at hv
    · intro r _ hv
      rw [mainRun_false_eq] at hv
      simp [appliedVersions] at hv
    · intro h
      rw [mainRun_false_eq] at h
      simp at h
  | true =>
    by_cases hie : (sortFiles fs).isEmpty
    · refine ⟨?_, ?_, ?_⟩
      · intro v hv
        rw [mainRun_true_empty st fs hie] at hv
        simp [appliedVersions] at hv
      · intro r _ hv
        rw [mainRun_true_empty st fs hie] at hv
        simp [appliedVersions] at hv
      · intro _
        rw [mainRun_true_empty st fs hie]
        rw [mainRun_true_empty st fs hie]
        exact ⟨rfl, rfl⟩
    · have hie' : (sortFiles fs).isEmpty = false := by simpa using hie
      have hv_gt : ∀ v ∈ appliedVersions (mainRun true st fs),
          get_current_version ⟨st, none⟩ < v := by
        intro v hv
        rw [mem_appliedVersions] at hv
        rcases mainRun_reports_split st fs hie' _ hv
          with h' | h' | ⟨k, h'⟩ | ⟨u, h'⟩
        · simp at h'
        · exact loop_appliedOk_gt _ _ _ _ rfl h'
        · simp at h'
        · simp at h'
      refine ⟨hv_gt, ?_, ?_⟩
      · intro r hr hv
        have h1 := hv_gt _ hv
        have h2 : r.version ≤ get_current_version ⟨st, none⟩ :=
          version_le_gcv (c := ⟨st, none⟩) hr
        omega
      · intro hexit
        rcases hfa : (migrate_loop ⟨st, none⟩ (get_current_version ⟨st, none⟩)
            (sortFiles fs)).failedAt with _ | w
        · have hpend := loop_pending (sortFiles fs) ⟨st, none⟩
            (get_current_version ⟨st, none⟩) rfl
          have hgcv_eq : get_current_version (migrate_loop ⟨st, none⟩
              (get_current_version ⟨st, none⟩) (sortFiles fs)).conn =
              get_current_version ⟨(migrate_loop ⟨st, none⟩
                (get_current_version ⟨st, none⟩)
                (sortFiles fs)).conn.committed, none⟩ :=
            gcv_committed hpend
          obtain ⟨t, ht, hall⟩ := loop_growth (sortFiles fs) ⟨st, none⟩
            (get_current_version ⟨st, none⟩) rfl
          have hmono : get_current_version (⟨st, none⟩ : Conn) ≤
              get_current_version ⟨(migrate_loop ⟨st, none⟩
                (get_current_version ⟨st, none⟩)
                (sortFiles fs)).conn.committed, none⟩ :=
            gcv_append_ge ht hall
          have hskip : ∀ f ∈ sortFiles fs, parseVersion f.name = none ∨
              ∃ v, parseVersion f.name = some v ∧
                v ≤ get_current_version ⟨(migrate_loop ⟨st, none⟩
                  (get_current_version ⟨st, none⟩)
                  (sortFiles fs)).conn.committed, none⟩ := by
            intro f hfm
            cases hpv : parseVersion f.name with
            | none => exact Or.inl rfl
            | some v =>
              refine Or.inr ⟨v, rfl, ?_⟩
              obtain ⟨_, h2⟩ := loop_success_files (sortFiles fs) ⟨st, none⟩
                (get_current_version ⟨st, none⟩) rfl hfa f hfm
              rcases h2 v hpv with hle | hhas
              · omega
              · obtain ⟨r, hr, hrv⟩ := ledgerHas_iff.mp hhas
                have := version_le_gcv (c := ⟨(migrate_loop ⟨st, none⟩
                  (get_current_version ⟨st, none⟩)
                  (sortFiles fs)).conn.committed, none⟩) hr
                omega
          obtain ⟨hc2, hcnt2, hfa2⟩ := loop_noop (sortFiles fs)
            ⟨(migrate_loop ⟨st, none⟩ (get_current_version ⟨st, none⟩)
              (sortFiles fs)).conn.committed, none⟩
            (get_current_version ⟨(migrate_loop ⟨st, none⟩
              (get_current_version ⟨st, none⟩)
              (sortFiles fs)).conn.committed, none⟩) hskip
          rw [mainRun_true_none st fs hie' hfa]
          rw [mainRun_true_none _ fs hie' hfa2]
          refine ⟨hcnt2, ?_⟩
          rw [hc2]
          exact hgcv_eq.symm
        · rw [mainRun_true_some st fs w hie' hfa] at hexit
          simp at hexit

theorem rerun_idempotent_after_success_witness :
    (mainRun true (mainRun true ⟨[], []⟩
      [⟨"0001_a.sql", true, true⟩]).conn.committed
      [⟨"0001_a.sql", true, true⟩]).applied_count = 0 ∧
    get_current_version (mainRun true (mainRun true ⟨[], []⟩
      [⟨"0001_a.sql", true, true⟩]).conn.committed
      [⟨"0001_a.sql", true, true⟩]).conn =
      get_current_version (mainRun true ⟨[], []⟩
        [⟨"0001_a.sql", true, true⟩]).conn :=
  (rerun_idempotent_after_success true ⟨[], []⟩
    [⟨"0001_a.sql", true, true⟩]).2.2 (by decide)

/-- **C3** (code bug evidence): with units `0005_a.sql` (valid),
`0005_b.sql` (valid body, but its ledger insert fails because version 5
was just recorded), `0006_c.sql` (valid), the run is fail-fast as claimed:
`0006_c.sql` is never attempted, the earlier success is recorded and
visible, the failing unit is not recorded, and the run reports failure at
version 5 with exit code 1 — but the failing unit's body effects REMAIN
visible afterwards (effects list contains `0005_b.sql`), contradicting the
claim that the failing candidate is "neither recorded nor visible". -/
theorem fail_fast_halts_but_failing_effects_visible :
    (mainRun true ⟨[], []⟩ [⟨"0005_a.sql", true, true⟩,
      ⟨"0005_b.sql", true, true⟩, ⟨"0006_c.sql", true, true⟩]).exitCode
      = 1 ∧
    appliedVersions (mainRun true ⟨[], []⟩ [⟨"0005_a.sql", true, true⟩,
      ⟨"0005_b.sql", true, true⟩, ⟨"0006_c.sql", true, true⟩]) = [5] ∧
    attemptedNames (mainRun true ⟨[], []⟩ [⟨"0005_a.sql", true, true⟩,
      ⟨"0005_b.sql", true, true⟩, ⟨"0006_c.sql", true, true⟩]) =
      ["0005_a.sql", "0005_b.sql"] ∧
    (mainRun true ⟨[], []⟩ [⟨"0005_a.sql", true, true⟩,
      ⟨"0005_b.sql", true, true⟩,
      ⟨"0006_c.sql", true, true⟩]).conn.committed.ledger =
      [⟨5, "0005_a"⟩] ∧
    (mainRun true ⟨[], []⟩ [⟨"0005_a.sql", true, true⟩,
      ⟨"0005_b.sql", true, true⟩,
      ⟨"0006_c.sql", true, true⟩]).conn.committed.effects =
      ["0005_a.sql", "0005_b.sql"] ∧
    (mainRun true ⟨[], []⟩ [⟨"0005_a.sql", true, true⟩,
      ⟨"0005_b.sql", true, true⟩,
      ⟨"0006_c.sql", true, true⟩]).failedAt = some 5 ∧
    Report.stoppedAtR 5 ∈ (mainRun true ⟨[], []⟩
      [⟨"0005_a.sql", true, true⟩, ⟨"0005_b.sql", true, true⟩,
        ⟨"0006_c.sql", true, true⟩]).reports :=
  ⟨by decide, by decide, by decide, by decide, by decide, by decide,
    by decide⟩
